import Mathlib

/-!
Shallow embedding of the RSA core of `rsa_image.py` (functions `is_prime`,
`generate_prime`, `gcd`, `mod_inverse`, `generate_keypair`, `encrypt_text`,
`decrypt_text`, `encrypt_bytes`, `decrypt_bytes`) together with theorems
settling the specification claims about them.

Conventions of the embedding:
* Python arbitrary-precision integers become `ℕ` (all values handled by the
  core are non-negative); the signed Bézout coefficients inside
  `mod_inverse` become `ℤ`.
* `pow(a, b, n)` becomes `a ^ b % n`.
* Randomness is made explicit: `is_prime` takes the list of drawn bases,
  and the randomized generators (`generate_prime`, `generate_keypair`)
  become relations between their parameters and a possible return value,
  existentially quantified over the random draws.
* A Python function that can abort (an error message followed by an early
  sentinel return, or an uncaught exception) returns `Option`: `none` is
  the aborted call.
-/

set_option exponentiation.threshold 4000

namespace RSAImage

/-- The inner squaring loop of `is_prime` (source lines 33–38):
starting from `x`, repeat at most `k` times `x = pow(x, 2, n)`, stopping
with success as soon as `x == n - 1`; `false` means the loop fell through
without ever seeing `n - 1` (the `for ... else: return False` path). -/
def trialLoop (n : ℕ) : ℕ → ℕ → Bool
  | _, 0 => false
  | x, k + 1 =>
    let x2 := x ^ 2 % n
    if x2 = n - 1 then true else trialLoop n x2 k

/-- One Miller-Rabin round of `is_prime` (source lines 28–38) with the
drawn base `a` made explicit: `x = pow(a, d, n)`; the round passes if
`x` is `1` or `n-1`, or if one of the at most `s-1` squarings reaches
`n-1`. -/
def millerTrial (n d s a : ℕ) : Bool :=
  let x := a ^ d % n
  if x = 1 ∨ x = n - 1 then true
  else trialLoop n x (s - 1)

/-- The `for _ in range(k)` loop of `is_prime` over the drawn bases:
returns `false` as soon as one round certifies compositeness (the early
`return False`), `true` if every round passed. -/
def is_prime_trials (n d s : ℕ) : List ℕ → Bool
  | [] => true
  | a :: rest => if millerTrial n d s a then is_prime_trials n d s rest else false

/-- The `while d % 2 == 0: s += 1; d //= 2` loop of `is_prime`
(source lines 21–25), returning the final `(s, d)`.  (The source runs it
on `n - 1` with `n ≥ 5`, so the `d = 0` guard added for well-founded
recursion is never exercised there.) -/
def splitTwos (d : ℕ) : ℕ × ℕ :=
  if h : d % 2 = 0 ∧ d ≠ 0 then
    let sd := splitTwos (d / 2)
    (sd.1 + 1, sd.2)
  else (0, d)
  termination_by d
  decreasing_by exact Nat.div_lt_self (Nat.pos_of_ne_zero h.2) one_lt_two

/-- `is_prime(n, k=5)` (source lines 8–39) with the `k` random bases
`a = random.randint(2, n - 2)` supplied as the list `bases`. -/
def is_prime_with (n : ℕ) (bases : List ℕ) : Bool :=
  if n ≤ 1 ∨ n = 4 then false
  else if n ≤ 3 then true
  else if n % 2 = 0 then false
  else
    let sd := splitTwos (n - 1)
    is_prime_trials n sd.2 sd.1 bases

/-- `b` is a possible result of `is_prime(n)` with the default `k = 5`:
there is a draw of the 5 random bases (each in `[2, n-2]`; the bases are
only drawn, hence only constrained, when the trial loop is reached, i.e.
for odd `n ≥ 5`) on which `is_prime` returns `b`. -/
def IsPrimeRet (n : ℕ) (b : Bool) : Prop :=
  ∃ bases : List ℕ, bases.length = 5 ∧
    (5 ≤ n → n % 2 = 1 → ∀ a ∈ bases, 2 ≤ a ∧ a ≤ n - 2) ∧
    is_prime_with n bases = b

/-- `p` is a possible return value of `generate_prime(bits)` (source
lines 41–50): some draw `r = random.getrandbits(bits)` with
`p = r | (1 << bits - 1) | 1` passed `is_prime`. -/
def GeneratesPrime (bits p : ℕ) : Prop :=
  ∃ r : ℕ, r < 2 ^ bits ∧ p = r ||| ((1 <<< (bits - 1)) ||| 1) ∧ IsPrimeRet p true

/-- `gcd(a, b)` (source lines 52–58): iterative Euclid,
`while b: a, b = b, a % b; return a`. -/
def gcd (a b : ℕ) : ℕ :=
  if h : b = 0 then a else gcd b (a % b)
  termination_by b
  decreasing_by exact Nat.mod_lt _ (Nat.pos_of_ne_zero h)

/-- The `while a > 1` loop of `mod_inverse` (source lines 70–77), acting
on the state `(a, m, x, y)`; one iteration is
`q = a // m; (a, m) = (m, a % m); (x, y) = (y, x - q * y)`.
`none` models the uncaught `ZeroDivisionError` that Python raises at
`a // m` when the remainder chain reaches `m = 0` while `a > 1` (which
happens exactly when `gcd(a, m) > 1` reaches the loop). -/
def modInvLoop (a m : ℕ) (x y : ℤ) : Option ℤ :=
  if 1 < a then
    if h : m = 0 then none
    else modInvLoop m (a % m) y (x - (a / m : ℕ) * y)
  else some x
  termination_by m
  decreasing_by exact Nat.mod_lt _ (Nat.pos_of_ne_zero h)

/-- `mod_inverse(a, m)` (source lines 60–80): extended Euclid with
`m0 = m`, `x = 1`, `y = 0`; returns `0` when `m == 1`, else runs the
loop and normalizes a negative `x` by adding `m0`. -/
def mod_inverse (a m : ℕ) : Option ℤ :=
  if m = 1 then some 0
  else (modInvLoop a m 1 0).map fun x => if x < 0 then x + m else x

/-- `kp` is a possible return value of `generate_keypair(bits)` (source
lines 82–113): `p` and `q` are possible `generate_prime(bits // 2)`
results with `q ≠ p` enforced by the retry loop, `e` is a possible
result of the `random.randint(2, phi - 1)` retry loop (so
`gcd(e, phi) == 1`), `d = mod_inverse(e, phi)`, and the result is
`((n, e), (n, d))` with `n = p * q`. -/
def GeneratesKeypair (bits : ℕ) (kp : (ℕ × ℕ) × (ℕ × ℕ)) : Prop :=
  ∃ p q e d : ℕ,
    GeneratesPrime (bits / 2) p ∧ GeneratesPrime (bits / 2) q ∧ p ≠ q ∧
    2 ≤ e ∧ e ≤ (p - 1) * (q - 1) - 1 ∧ gcd e ((p - 1) * (q - 1)) = 1 ∧
    mod_inverse e ((p - 1) * (q - 1)) = some (d : ℤ) ∧
    kp = ((p * q, e), (p * q, d))

/-- `encrypt_text(public_key, plaintext)` (source lines 116–135) on the
sequence of code points of `plaintext`: each unit is checked against `n`
(`if char_as_int >= n: ... return []`, modelled by `none`: the whole
call aborts) and otherwise encrypted as `pow(char_as_int, e, n)`. -/
def encrypt_text (key : ℕ × ℕ) : List ℕ → Option (List ℕ)
  | [] => some []
  | c :: rest =>
    if key.1 ≤ c then none
    else
      match encrypt_text key rest with
      | none => none
      | some l => some (c ^ key.2 % key.1 :: l)

/-- `decrypt_text(private_key, ciphertext_ints)` (source lines 137–146):
each unit becomes `chr(pow(char_code, d, n))`.  `chr` only accepts code
points in `[0, 0x10FFFF]`; a larger decrypted value makes `chr` raise an
uncaught `ValueError`, modelled by `none`. -/
def decrypt_text (key : ℕ × ℕ) : List ℕ → Option (List ℕ)
  | [] => some []
  | c :: rest =>
    let v := c ^ key.2 % key.1
    if 0x10FFFF < v then none
    else
      match decrypt_text key rest with
      | none => none
      | some l => some (v :: l)

/-- `encrypt_bytes(public_key, data_bytes)` (source lines 150–162): every
byte is encrypted as `pow(byte_val, e, n)`; the source performs no range
check on this path, so the call cannot fail. -/
def encrypt_bytes (key : ℕ × ℕ) (data : List ℕ) : List ℕ :=
  data.map fun b => b ^ key.2 % key.1

/-- `decrypt_bytes(private_key, ciphertext_ints)` (source lines 164–180):
each unit is decrypted as `pow(encrypted_int, d, n)`; a decrypted value
outside `[0, 255]` aborts the whole call (`return b""` after the error
message, modelled by `none`) without emitting any byte. -/
def decrypt_bytes (key : ℕ × ℕ) : List ℕ → Option (List ℕ)
  | [] => some []
  | c :: rest =>
    let v := c ^ key.2 % key.1
    if 255 < v then none
    else
      match decrypt_bytes key rest with
      | none => none
      | some l => some (v :: l)

/-- The raw Python return value of `encrypt_text`: the aborted call
returns the same `[]` the successful empty call returns. -/
def encrypt_text_ret (key : ℕ × ℕ) (plaintext : List ℕ) : List ℕ :=
  (encrypt_text key plaintext).getD []

/-- The raw Python return value of `decrypt_bytes`: the aborted call
returns the empty byte string `b""`. -/
def decrypt_bytes_ret (key : ℕ × ℕ) (cipher : List ℕ) : List ℕ :=
  (decrypt_bytes key cipher).getD []

/-! ### The source `gcd` agrees with `Nat.gcd` -/

theorem gcd_eq_nat_gcd (a b : ℕ) : gcd a b = Nat.gcd a b := by
  induction b using Nat.strong_induction_on generalizing a with
  | _ b ih =>
    rw [gcd]
    split
    · rename_i h; subst h; simp
    · rename_i h
      rw [ih (a % b) (Nat.mod_lt _ (Nat.pos_of_ne_zero h)) b,
        Nat.gcd_comm b (a % b), ← Nat.gcd_rec b a, Nat.gcd_comm b a]

/-! ### `splitTwos` -/

theorem splitTwos_odd {d : ℕ} (h : d % 2 = 1) : splitTwos d = (0, d) := by
  rw [splitTwos]
  simp [h]

theorem splitTwos_two_mul {d : ℕ} (h : d ≠ 0) :
    splitTwos (2 * d) = ((splitTwos d).1 + 1, (splitTwos d).2) := by
  rw [splitTwos]
  have h2 : 2 * d % 2 = 0 ∧ 2 * d ≠ 0 := by
    constructor
    · omega
    · exact fun hc => h (by omega)
  rw [dif_pos h2]
  simp [Nat.mul_div_cancel_left d (by norm_num : 0 < 2)]

theorem splitTwos_pow (s : ℕ) {d : ℕ} (hd : d % 2 = 1) :
    splitTwos (2 ^ s * d) = (s, d) := by
  induction s with
  | zero => simpa using splitTwos_odd hd
  | succ s ih =>
    have : 2 ^ (s + 1) * d = 2 * (2 ^ s * d) := by ring
    have hdn : d ≠ 0 := by omega
    rw [this, splitTwos_two_mul (by positivity), ih]

theorem splitTwos_spec {m : ℕ} (hm : m ≠ 0) :
    m = 2 ^ (splitTwos m).1 * (splitTwos m).2 ∧ (splitTwos m).2 % 2 = 1 := by
  induction m using Nat.strong_induction_on with
  | _ m ih =>
    rcases Nat.even_or_odd m with he | ho
    · have h2 : m % 2 = 0 := Nat.even_iff.mp he
      have hd : m / 2 ≠ 0 := by omega
      have hm2 : m = 2 * (m / 2) := by omega
      have := ih (m / 2) (by omega) hd
      rw [hm2, splitTwos_two_mul hd]
      refine ⟨?_, this.2⟩
      calc 2 * (m / 2) = 2 * (2 ^ (splitTwos (m / 2)).1 * (splitTwos (m / 2)).2) := by
            rw [← this.1]
        _ = 2 ^ ((splitTwos (m / 2)).1 + 1) * (splitTwos (m / 2)).2 := by ring
    · have h1 : m % 2 = 1 := Nat.odd_iff.mp ho
      rw [splitTwos_odd h1]
      simpa using h1

/-! ### Unfolding `is_prime_with` -/

theorem is_prime_with_of_le_one {n : ℕ} (h : n ≤ 1) (bases : List ℕ) :
    is_prime_with n bases = false := by
  unfold is_prime_with
  rw [if_pos (Or.inl h)]

theorem is_prime_with_four (bases : List ℕ) : is_prime_with 4 bases = false := by
  unfold is_prime_with
  rw [if_pos (Or.inr rfl)]

theorem is_prime_with_two_or_three {n : ℕ} (h : n = 2 ∨ n = 3) (bases : List ℕ) :
    is_prime_with n bases = true := by
  unfold is_prime_with
  rw [if_neg (by omega), if_pos (by omega)]

theorem is_prime_with_even {n : ℕ} (h2 : 2 < n) (he : n % 2 = 0) (bases : List ℕ) :
    is_prime_with n bases = false := by
  unfold is_prime_with
  rcases eq_or_ne n 4 with h4 | h4
  · rw [if_pos (Or.inr h4)]
  · rw [if_neg (by omega), if_neg (by omega), if_pos he]

theorem is_prime_with_trials {n s d : ℕ} (h5 : 5 ≤ n) (ho : n % 2 = 1)
    (hsd : n - 1 = 2 ^ s * d) (hd : d % 2 = 1) (bases : List ℕ) :
    is_prime_with n bases = is_prime_trials n d s bases := by
  unfold is_prime_with
  rw [if_neg (by omega), if_neg (by omega), if_neg (by omega), hsd, splitTwos_pow s hd]

/-! ### The squaring loop, characterized -/

/-- The value of the loop variable of `trialLoop` after `j` squarings. -/
def sqIter (n x : ℕ) : ℕ → ℕ
  | 0 => x
  | j + 1 => (sqIter n x j) ^ 2 % n

theorem trialLoop_succ (n x k : ℕ) :
    trialLoop n x (k + 1) =
      (if x ^ 2 % n = n - 1 then true else trialLoop n (x ^ 2 % n) k) := rfl

theorem is_prime_trials_cons (n d s a : ℕ) (rest : List ℕ) :
    is_prime_trials n d s (a :: rest) =
      (if millerTrial n d s a then is_prime_trials n d s rest else false) := rfl

theorem sqIter_shift (n x : ℕ) (j : ℕ) :
    sqIter n x (j + 1) = sqIter n (x ^ 2 % n) j := by
  induction j with
  | zero => rfl
  | succ j ih =>
    show (sqIter n x (j + 1)) ^ 2 % n = (sqIter n (x ^ 2 % n) j) ^ 2 % n
    rw [ih]

theorem trialLoop_true {n x0 : ℕ} {k : ℕ} (j : ℕ) (hj1 : 1 ≤ j) (hjk : j ≤ k)
    (hx : sqIter n x0 j = n - 1) : trialLoop n x0 k = true := by
  induction k generalizing x0 j with
  | zero => omega
  | succ k ih =>
    rw [trialLoop_succ]
    by_cases h : x0 ^ 2 % n = n - 1
    · rw [if_pos h]
    · rw [if_neg h]
      have hj2 : 2 ≤ j := by
        rcases Nat.lt_or_ge j 2 with h2 | h2
        · exfalso
          have hj : j = 1 := by omega
          subst hj
          exact h hx
        · exact h2
      refine ih (j := j - 1) (by omega) (by omega) ?_
      rw [← sqIter_shift]
      have : j - 1 + 1 = j := by omega
      rw [this, hx]

theorem sqIter_pow (n a d : ℕ) (i : ℕ) :
    sqIter n (a ^ d % n) i = a ^ (d * 2 ^ i) % n := by
  induction i with
  | zero => simp [sqIter]
  | succ i ih =>
    show (sqIter n (a ^ d % n) i) ^ 2 % n = _
    rw [ih, ← Nat.pow_mod, ← pow_mul]
    congr 1
    ring

/-! ### Transfers between `ℕ` residues and `ZMod p` -/

theorem natCast_eq_one_iff {p : ℕ} (hp : 1 < p) (x : ℕ) :
    ((x : ZMod p) = 1) ↔ x % p = 1 := by
  rw [show (1 : ZMod p) = ((1 : ℕ) : ZMod p) by norm_cast,
    ZMod.natCast_eq_natCast_iff]
  unfold Nat.ModEq
  rw [Nat.mod_eq_of_lt hp]

theorem natCast_eq_neg_one_iff {p : ℕ} (hp : 1 < p) (x : ℕ) :
    ((x : ZMod p) = -1) ↔ x % p = p - 1 := by
  have hcast : ((p - 1 : ℕ) : ZMod p) = -1 := by
    rw [Nat.cast_sub (by omega : 1 ≤ p), ZMod.natCast_self, Nat.cast_one]
    ring
  rw [← hcast, ZMod.natCast_eq_natCast_iff]
  unfold Nat.ModEq
  rw [Nat.mod_eq_of_lt (by omega : p - 1 < p)]

/-! ### Miller-Rabin never rejects a prime -/

theorem pow_two_pow_chain (p : ℕ) [Fact (Nat.Prime p)] (hp2 : 2 < p) :
    ∀ (s : ℕ) (β : ZMod p), β ^ 2 ^ s = 1 → β = 1 ∨ ∃ i < s, β ^ 2 ^ i = -1 := by
  intro s
  induction s with
  | zero =>
    intro β h
    left
    simpa using h
  | succ s ih =>
    intro β h
    have hsq : (β ^ 2 ^ s) * (β ^ 2 ^ s) = 1 := by
      rw [← pow_add, ← h]
      congr 1
      ring
    rcases mul_self_eq_one_iff.mp hsq with h1 | hm1
    · rcases ih β h1 with h' | ⟨i, hi, hneg⟩
      · exact Or.inl h'
      · exact Or.inr ⟨i, Nat.lt_succ_of_lt hi, hneg⟩
    · exact Or.inr ⟨s, Nat.lt_succ_self s, hm1⟩

theorem millerTrial_prime {p : ℕ} (hp : p.Prime) (h5 : 5 ≤ p) {s d : ℕ}
    (hsd : p - 1 = 2 ^ s * d) {a : ℕ} (ha1 : 1 ≤ a) (ha2 : a ≤ p - 2) :
    millerTrial p d s a = true := by
  haveI : Fact p.Prime := ⟨hp⟩
  have hp1 : 1 < p := by omega
  have hane : (a : ZMod p) ≠ 0 := by
    rw [Ne, ZMod.natCast_zmod_eq_zero_iff_dvd]
    intro hdvd
    have := Nat.le_of_dvd (by omega) hdvd
    omega
  have hferm : (a : ZMod p) ^ (p - 1) = 1 := ZMod.pow_card_sub_one_eq_one hane
  have hchain : ((a : ZMod p) ^ d) ^ 2 ^ s = 1 := by
    rw [← pow_mul, mul_comm d (2 ^ s), ← hsd, hferm]
  rcases pow_two_pow_chain p (by omega) s ((a : ZMod p) ^ d) hchain with h1 | ⟨i, his, hneg⟩
  · have hx : a ^ d % p = 1 := by
      rw [← natCast_eq_one_iff hp1]
      push_cast
      exact h1
    unfold millerTrial
    rw [if_pos (Or.inl hx)]
  · rcases Nat.eq_zero_or_pos i with hi0 | hipos
    · subst hi0
      have hx : a ^ d % p = p - 1 := by
        rw [← natCast_eq_neg_one_iff hp1]
        push_cast
        simpa using hneg
      unfold millerTrial
      rw [if_pos (Or.inr hx)]
    · unfold millerTrial
      by_cases hcond : a ^ d % p = 1 ∨ a ^ d % p = p - 1
      · rw [if_pos hcond]
      · rw [if_neg hcond]
        refine trialLoop_true i hipos (by omega) ?_
        rw [sqIter_pow, ← natCast_eq_neg_one_iff hp1]
        push_cast
        rw [pow_mul]
        exact hneg

theorem is_prime_trials_of_all {n d s : ℕ} {bases : List ℕ}
    (h : ∀ a ∈ bases, millerTrial n d s a = true) :
    is_prime_trials n d s bases = true := by
  induction bases with
  | nil => rfl
  | cons a rest ih =>
    rw [is_prime_trials_cons, h a (List.mem_cons_self a rest), if_pos rfl]
    exact ih fun b hb => h b (List.mem_cons_of_mem _ hb)

theorem is_prime_with_prime {p : ℕ} (hp : p.Prime) (bases : List ℕ)
    (hb : ∀ a ∈ bases, 2 ≤ a ∧ a ≤ p - 2) : is_prime_with p bases = true := by
  rcases Nat.lt_or_ge p 5 with h5 | h5
  · have h2 := hp.two_le
    interval_cases p
    · exact is_prime_with_two_or_three (Or.inl rfl) bases
    · exact is_prime_with_two_or_three (Or.inr rfl) bases
    · exact absurd hp (by norm_num)
  · have hodd : p % 2 = 1 := Nat.odd_iff.mp (hp.odd_of_ne_two (by omega))
    obtain ⟨hsplit, hdodd⟩ := splitTwos_spec (show p - 1 ≠ 0 by omega)
    rw [is_prime_with_trials h5 hodd hsplit hdodd]
    exact is_prime_trials_of_all fun a ha =>
      millerTrial_prime hp h5 hsplit (le_trans one_le_two (hb a ha).1) (hb a ha).2

/-! ### Correctness of `mod_inverse` -/

/-- Invariant-based correctness of the `while a > 1` loop of `mod_inverse`.
The state `(a, m, x, y)` keeps `x·a0 ≡ a` and `y·a0 ≡ m (mod m0)`, the signs
of `x` and `y` alternate, and `|x|·m + |y|·a = m0` stays constant; at exit the
returned coefficient is an inverse of `a0` of magnitude below `m0`. -/
theorem modInvLoop_spec (a0 m0 : ℕ) (hm0 : 1 < m0) :
    ∀ m a : ℕ, ∀ x y : ℤ,
      1 ≤ a → (a = 1 → 1 ≤ m) → Nat.gcd a m = 1 →
      x * a0 ≡ (a : ℤ) [ZMOD (m0 : ℤ)] →
      y * a0 ≡ (m : ℤ) [ZMOD (m0 : ℤ)] →
      ((0 ≤ x ∧ y ≤ 0) ∨ (x ≤ 0 ∧ 0 ≤ y)) →
      x.natAbs * m + y.natAbs * a = m0 →
      ∃ r : ℤ, modInvLoop a m x y = some r ∧
        r * a0 ≡ 1 [ZMOD (m0 : ℤ)] ∧ r.natAbs < m0 := by
  intro m
  induction m using Nat.strong_induction_on with
  | _ m ih =>
    intro a x y ha1 ham hgcd hcx hcy hsign hsum
    rcases Nat.lt_or_ge a 2 with ha2 | ha2
    · -- exit: a = 1, return x
      have haeq : a = 1 := by omega
      subst haeq
      have hm1 : 1 ≤ m := ham rfl
      refine ⟨x, ?_, ?_, ?_⟩
      · rw [modInvLoop, if_neg (by omega)]
      · simpa using hcx
      · by_contra hge
        push_neg at hge
        have hxm : x.natAbs ≤ x.natAbs * m := Nat.le_mul_of_pos_right _ (by omega)
        have hxeq : x.natAbs = m0 := by omega
        rw [hxeq] at hsum
        have hmeq : m = 1 := by
          by_contra hne
          have h2m : m0 * 2 ≤ m0 * m := Nat.mul_le_mul_left m0 (by omega)
          omega
        rw [hmeq, mul_one] at hsum
        have hy0 : y.natAbs = 0 := by omega
        have hyz : y = 0 := Int.natAbs_eq_zero.mp hy0
        rw [hyz, zero_mul] at hcy
        have hdvd : (m0 : ℤ) ∣ 1 := by
          have h01 : (0 : ℤ) ≡ 1 [ZMOD (m0 : ℤ)] := by
            calc (0 : ℤ) ≡ (m : ℤ) [ZMOD (m0 : ℤ)] := hcy
              _ = 1 := by rw [hmeq]; norm_num
          have := (Int.modEq_iff_dvd.mp h01)
          simpa using this
        have := Int.le_of_dvd one_pos hdvd
        omega
    · rcases Nat.eq_zero_or_pos m with hmz | hmpos
      · -- would be Python's ZeroDivisionError; impossible when gcd = 1
        exfalso
        subst hmz
        simp only [Nat.gcd_zero_right] at hgcd
        omega
      · rcases Nat.lt_or_ge m 2 with hmlt | hm2
        · -- m = 1: two more unfoldings return y
          have hmeq : m = 1 := by omega
          subst hmeq
          refine ⟨y, ?_, ?_, ?_⟩
          · rw [modInvLoop, if_pos (by omega : 1 < a), dif_neg (by omega : ¬(1 : ℕ) = 0),
              Nat.mod_one, modInvLoop, if_neg (by omega)]
          · simpa using hcy
          · have h2y : y.natAbs * 2 ≤ y.natAbs * a := Nat.mul_le_mul_left _ ha2
            omega
        · -- 2 ≤ m: one loop iteration, then the induction hypothesis
          have hr : (↑(a % m) : ℤ) = (a : ℤ) - ((a / m : ℕ) : ℤ) * (m : ℤ) := by
            have h : ((a % m : ℕ) : ℤ) + (m : ℤ) * ((a / m : ℕ) : ℤ) = (a : ℤ) := by
              exact_mod_cast congrArg (Nat.cast : ℕ → ℤ) (Nat.mod_add_div a m)
            linarith [h]
          have hstep : modInvLoop a m x y =
              modInvLoop m (a % m) y (x - ((a / m : ℕ) : ℤ) * y) := by
            rw [modInvLoop, if_pos (by omega : 1 < a), dif_neg (by omega : ¬m = 0)]
          rw [hstep]
          refine ih (a % m) (Nat.mod_lt _ (by omega)) m y (x - ((a / m : ℕ) : ℤ) * y)
            (by omega) (fun h => absurd h (by omega)) ?_ hcy ?_ ?_ ?_
          · rw [Nat.gcd_comm m (a % m), ← Nat.gcd_rec m a, Nat.gcd_comm m a]
            exact hgcd
          · -- (x - q·y)·a0 ≡ a % m  (mod m0)
            have hq : ((a / m : ℕ) : ℤ) * y * (a0 : ℤ) ≡ ((a / m : ℕ) : ℤ) * (m : ℤ)
                [ZMOD (m0 : ℤ)] := by
              have := hcy.mul_left ((a / m : ℕ) : ℤ)
              calc ((a / m : ℕ) : ℤ) * y * (a0 : ℤ)
                  = ((a / m : ℕ) : ℤ) * (y * (a0 : ℤ)) := by ring
                _ ≡ ((a / m : ℕ) : ℤ) * (m : ℤ) [ZMOD (m0 : ℤ)] := this
            have hsub := hcx.sub hq
            rw [hr]
            calc (x - ((a / m : ℕ) : ℤ) * y) * (a0 : ℤ)
                = x * (a0 : ℤ) - ((a / m : ℕ) : ℤ) * y * (a0 : ℤ) := by ring
              _ ≡ (a : ℤ) - ((a / m : ℕ) : ℤ) * (m : ℤ) [ZMOD (m0 : ℤ)] := hsub
          · -- signs still alternate
            rcases hsign with ⟨hx, hy⟩ | ⟨hx, hy⟩
            · right
              refine ⟨hy, ?_⟩
              have : ((a / m : ℕ) : ℤ) * y ≤ 0 :=
                mul_nonpos_of_nonneg_of_nonpos (by positivity) hy
              linarith
            · left
              refine ⟨hy, ?_⟩
              have : 0 ≤ ((a / m : ℕ) : ℤ) * y :=
                mul_nonneg (by positivity) hy
              linarith
          · -- the weighted sum is preserved
            have hsumz : (x.natAbs : ℤ) * m + (y.natAbs : ℤ) * a = m0 := by
              exact_mod_cast congrArg (Nat.cast : ℕ → ℤ) hsum
            rw [Int.natCast_natAbs, Int.natCast_natAbs] at hsumz
            have goalz : (y.natAbs : ℤ) * ↑(a % m) +
                ((x - ((a / m : ℕ) : ℤ) * y).natAbs : ℤ) * m = m0 := by
              rw [Int.natCast_natAbs, Int.natCast_natAbs, hr]
              rcases hsign with ⟨hx, hy⟩ | ⟨hx, hy⟩
              · have hxy : 0 ≤ x - ((a / m : ℕ) : ℤ) * y := by
                  have : ((a / m : ℕ) : ℤ) * y ≤ 0 :=
                    mul_nonpos_of_nonneg_of_nonpos (by positivity) hy
                  linarith
                rw [abs_of_nonpos hy, abs_of_nonneg hxy]
                rw [abs_of_nonneg hx, abs_of_nonpos hy] at hsumz
                ring_nf
                ring_nf at hsumz
                linarith
              · have hxy : x - ((a / m : ℕ) : ℤ) * y ≤ 0 := by
                  have : 0 ≤ ((a / m : ℕ) : ℤ) * y :=
                    mul_nonneg (by positivity) hy
                  linarith
                rw [abs_of_nonneg hy, abs_of_nonpos hxy]
                rw [abs_of_nonpos hx, abs_of_nonneg hy] at hsumz
                ring_nf
                ring_nf at hsumz
                linarith
            have : ((y.natAbs * (a % m) +
                (x - ((a / m : ℕ) : ℤ) * y).natAbs * m : ℕ) : ℤ) = (m0 : ℤ) := by
              push_cast
              push_cast at goalz
              linarith
            exact_mod_cast this

theorem mod_inverse_one (a : ℕ) : mod_inverse a 1 = some 0 := by
  unfold mod_inverse
  rw [if_pos rfl]

theorem mod_inverse_spec {a m : ℕ} (hm : 1 < m) (hgcd : Nat.gcd a m = 1) :
    ∃ r : ℤ, mod_inverse a m = some r ∧ 0 ≤ r ∧ r < (m : ℤ) ∧
      (a : ℤ) * r ≡ 1 [ZMOD (m : ℤ)] := by
  have ha1 : 1 ≤ a := by
    by_contra h
    push_neg at h
    have ha0 : a = 0 := by omega
    rw [ha0, Nat.gcd_zero_left] at hgcd
    omega
  have hcx : (1 : ℤ) * (a : ℤ) ≡ (a : ℤ) [ZMOD (m : ℤ)] := by rw [one_mul]
  have hcy : (0 : ℤ) * (a : ℤ) ≡ (m : ℤ) [ZMOD (m : ℤ)] := by
    rw [zero_mul]
    exact (Int.modEq_zero_iff_dvd.mpr dvd_rfl).symm
  have hsum : (1 : ℤ).natAbs * m + (0 : ℤ).natAbs * a = m := by simp
  obtain ⟨r0, hrun, hcong, habs⟩ :=
    modInvLoop_spec a m hm m a 1 0 ha1 (fun _ => by omega) hgcd hcx hcy
      (Or.inl ⟨zero_le_one, le_refl 0⟩) hsum
  by_cases hneg : r0 < 0
  · refine ⟨r0 + m, ?_, by omega, by omega, ?_⟩
    · unfold mod_inverse
      rw [if_neg (show ¬m = 1 by omega), hrun, Option.map_some', if_pos hneg]
    · calc (a : ℤ) * (r0 + m) = r0 * a + a * m := by ring
        _ ≡ 1 + 0 [ZMOD (m : ℤ)] :=
          Int.ModEq.add hcong (Int.modEq_zero_iff_dvd.mpr (dvd_mul_left _ _))
        _ = 1 := by ring
  · refine ⟨r0, ?_, by omega, by omega, ?_⟩
    · unfold mod_inverse
      rw [if_neg (show ¬m = 1 by omega), hrun, Option.map_some', if_neg hneg]
    · rw [mul_comm]
      exact hcong

/-- The inverse returned by `mod_inverse` is the unique residue in `[0, m)`
inverting `a`, so a concrete inverse can be certified by checking
`a * d % m = 1`. -/
theorem mod_inverse_eq_of {a m d : ℕ} (hm : 1 < m) (hgcd : Nat.gcd a m = 1)
    (hd : d < m) (hmul : a * d % m = 1) : mod_inverse a m = some (d : ℤ) := by
  obtain ⟨r, hrun, hr0, hrm, hcong⟩ := mod_inverse_spec hm hgcd
  suffices h : (d : ℤ) = r by rw [hrun, h]
  haveI : NeZero m := ⟨by omega⟩
  have hA : (a : ZMod m) * (d : ZMod m) = 1 := by
    have hmod : a * d ≡ 1 [MOD m] := by
      unfold Nat.ModEq
      rw [hmul, Nat.mod_eq_of_lt hm]
    have h2 := (ZMod.natCast_eq_natCast_iff (a * d) 1 m).mpr hmod
    push_cast at h2
    exact h2
  have hB : (a : ZMod m) * ((r : ℤ) : ZMod m) = 1 := by
    have h2 := (ZMod.intCast_eq_intCast_iff ((a : ℤ) * r) 1 m).mpr hcong
    push_cast at h2
    exact h2
  have hdr : ((d : ℕ) : ZMod m) = ((r : ℤ) : ZMod m) := by
    calc (d : ZMod m) = (d : ZMod m) * ((a : ZMod m) * ((r : ℤ) : ZMod m)) := by
          rw [hB, mul_one]
      _ = ((a : ZMod m) * (d : ZMod m)) * ((r : ℤ) : ZMod m) := by ring
      _ = ((r : ℤ) : ZMod m) := by rw [hA, one_mul]
  have hmodz : (d : ℤ) ≡ r [ZMOD (m : ℤ)] := by
    rw [← ZMod.intCast_eq_intCast_iff]
    push_cast
    exact hdr
  unfold Int.ModEq at hmodz
  rwa [Int.emod_eq_of_lt (by positivity) (by exact_mod_cast hd),
    Int.emod_eq_of_lt hr0 hrm] at hmodz

/-- From a successful `mod_inverse` run with coprime arguments, the returned
`d` satisfies `d < m` and `(a * d) % m = 1` over `ℕ`. -/
theorem mod_inverse_mul_mod {a m d : ℕ} (hm : 1 < m)
    (hgcd : Nat.gcd a m = 1) (hrun : mod_inverse a m = some (d : ℤ)) :
    d < m ∧ a * d % m = 1 := by
  obtain ⟨r, hr, hr0, hrm, hcong⟩ := mod_inverse_spec hm hgcd
  rw [hrun] at hr
  have hdr : (d : ℤ) = r := Option.some.inj hr
  rw [← hdr] at hrm hcong
  refine ⟨by exact_mod_cast hrm, ?_⟩
  unfold Int.ModEq at hcong
  rw [Int.emod_eq_of_lt zero_le_one (by exact_mod_cast hm)] at hcong
  have : ((a * d % m : ℕ) : ℤ) = 1 := by
    push_cast
    exact hcong
  exact_mod_cast this

/-! ### RSA correctness for genuinely prime factors -/

theorem pow_fermat_aux {p : ℕ} (hp : p.Prime) (m k : ℕ) :
    m ^ (k * (p - 1) + 1) ≡ m [MOD p] := by
  by_cases hdvd : p ∣ m
  · have h1 : m ≡ 0 [MOD p] := Nat.modEq_zero_iff_dvd.mpr hdvd
    calc m ^ (k * (p - 1) + 1) ≡ 0 ^ (k * (p - 1) + 1) [MOD p] := h1.pow _
      _ = 0 := zero_pow (by omega)
      _ ≡ m [MOD p] := h1.symm
  · have hco : Nat.Coprime m p := Nat.Coprime.symm (hp.coprime_iff_not_dvd.mpr hdvd)
    have hferm : m ^ (p - 1) ≡ 1 [MOD p] := by
      have h := Nat.ModEq.pow_totient hco
      rwa [Nat.totient_prime hp] at h
    calc m ^ (k * (p - 1) + 1) = (m ^ (p - 1)) ^ k * m := by
          rw [← pow_mul]
          rw [← pow_succ]
          congr 1
          ring
      _ ≡ 1 ^ k * m [MOD p] := (hferm.pow k).mul_right m
      _ = m := by rw [one_pow, one_mul]

theorem rsa_roundtrip_unit {p q e d : ℕ} (hp : p.Prime) (hq : q.Prime)
    (hpq : p ≠ q) (hed : e * d % ((p - 1) * (q - 1)) = 1) {m : ℕ}
    (hm : m < p * q) : (m ^ e % (p * q)) ^ d % (p * q) = m := by
  have hed1 : e * d = (p - 1) * (q - 1) * (e * d / ((p - 1) * (q - 1))) + 1 := by
    conv_lhs => rw [← Nat.div_add_mod (e * d) ((p - 1) * (q - 1))]
    rw [hed]
  set k := e * d / ((p - 1) * (q - 1)) with hk
  have hmp : m ^ (e * d) ≡ m [MOD p] := by
    have hrw : e * d = k * (q - 1) * (p - 1) + 1 := by
      rw [hed1]
      ring
    rw [hrw]
    exact pow_fermat_aux hp m (k * (q - 1))
  have hmq : m ^ (e * d) ≡ m [MOD q] := by
    have hrw : e * d = k * (p - 1) * (q - 1) + 1 := by
      rw [hed1]
      ring
    rw [hrw]
    exact pow_fermat_aux hq m (k * (p - 1))
  have hco : Nat.Coprime p q := (Nat.coprime_primes hp hq).mpr hpq
  have hmn : m ^ (e * d) ≡ m [MOD p * q] :=
    (Nat.modEq_and_modEq_iff_modEq_mul hco).mp ⟨hmp, hmq⟩
  calc (m ^ e % (p * q)) ^ d % (p * q) = (m ^ e) ^ d % (p * q) := by
        rw [← Nat.pow_mod]
    _ = m ^ (e * d) % (p * q) := by rw [← pow_mul]
    _ = m % (p * q) := hmn
    _ = m := Nat.mod_eq_of_lt hm

/-! ### The block codecs, characterized -/

theorem encrypt_text_cons (key : ℕ × ℕ) (c : ℕ) (rest : List ℕ) :
    encrypt_text key (c :: rest) =
      if key.1 ≤ c then none
      else
        match encrypt_text key rest with
        | none => none
        | some l => some (c ^ key.2 % key.1 :: l) := rfl

theorem decrypt_text_cons (key : ℕ × ℕ) (c : ℕ) (rest : List ℕ) :
    decrypt_text key (c :: rest) =
      if 0x10FFFF < c ^ key.2 % key.1 then none
      else
        match decrypt_text key rest with
        | none => none
        | some l => some (c ^ key.2 % key.1 :: l) := rfl

theorem decrypt_bytes_cons (key : ℕ × ℕ) (c : ℕ) (rest : List ℕ) :
    decrypt_bytes key (c :: rest) =
      if 255 < c ^ key.2 % key.1 then none
      else
        match decrypt_bytes key rest with
        | none => none
        | some l => some (c ^ key.2 % key.1 :: l) := rfl

theorem encrypt_text_all_lt {n e : ℕ} {units : List ℕ}
    (h : ∀ u ∈ units, u < n) :
    encrypt_text (n, e) units = some (units.map fun u => u ^ e % n) := by
  induction units with
  | nil => rfl
  | cons c rest ih =>
    rw [encrypt_text_cons,
      if_neg (not_le.mpr (h c (List.mem_cons_self c rest))),
      ih fun u hu => h u (List.mem_cons_of_mem _ hu)]
    rfl

theorem encrypt_text_none_of {n e : ℕ} {units : List ℕ}
    (h : ∃ u ∈ units, n ≤ u) : encrypt_text (n, e) units = none := by
  induction units with
  | nil => simp at h
  | cons c rest ih =>
    rw [encrypt_text_cons]
    by_cases hc : n ≤ c
    · rw [if_pos hc]
    · rw [if_neg hc]
      have hrest : ∃ u ∈ rest, n ≤ u := by
        rcases h with ⟨u, hu, hun⟩
        rcases List.mem_cons.mp hu with rfl | hmem
        · exact absurd hun hc
        · exact ⟨u, hmem, hun⟩
      rw [ih hrest]

theorem decrypt_text_all_le {n d : ℕ} {cipher : List ℕ}
    (h : ∀ c ∈ cipher, c ^ d % n ≤ 0x10FFFF) :
    decrypt_text (n, d) cipher = some (cipher.map fun c => c ^ d % n) := by
  induction cipher with
  | nil => rfl
  | cons c rest ih =>
    rw [decrypt_text_cons,
      if_neg (not_lt.mpr (h c (List.mem_cons_self c rest))),
      ih fun u hu => h u (List.mem_cons_of_mem _ hu)]
    rfl

theorem decrypt_bytes_all_le {n d : ℕ} {cipher : List ℕ}
    (h : ∀ c ∈ cipher, c ^ d % n ≤ 255) :
    decrypt_bytes (n, d) cipher = some (cipher.map fun c => c ^ d % n) := by
  induction cipher with
  | nil => rfl
  | cons c rest ih =>
    rw [decrypt_bytes_cons,
      if_neg (not_lt.mpr (h c (List.mem_cons_self c rest))),
      ih fun u hu => h u (List.mem_cons_of_mem _ hu)]
    rfl

theorem decrypt_bytes_none_iff {n d : ℕ} (cipher : List ℕ) :
    decrypt_bytes (n, d) cipher = none ↔ ∃ c ∈ cipher, 255 < c ^ d % n := by
  induction cipher with
  | nil => simp [decrypt_bytes]
  | cons c rest ih =>
    rw [decrypt_bytes_cons]
    by_cases hc : 255 < c ^ d % n
    · rw [if_pos hc]
      simp only [true_iff]
      exact ⟨c, List.mem_cons_self c rest, hc⟩
    · rw [if_neg hc]
      constructor
      · intro hnone
        rcases hrest : decrypt_bytes (n, d) rest with _ | l
        · rcases ih.mp hrest with ⟨u, hu, h255⟩
          exact ⟨u, List.mem_cons_of_mem _ hu, h255⟩
        · rw [hrest] at hnone
          simp at hnone
      · rintro ⟨u, hu, h255⟩
        rcases List.mem_cons.mp hu with rfl | hmem
        · exact absurd h255 hc
        · rw [ih.mpr ⟨u, hmem, h255⟩]

/-! ### Structure of generated primes and key pairs -/

theorem generatesPrime_odd {bits p : ℕ} (h : GeneratesPrime bits p) :
    p % 2 = 1 := by
  obtain ⟨r, _, hp, _⟩ := h
  rw [Nat.mod_two_eq_one_iff_testBit_zero, hp]
  simp [Nat.testBit_or]

theorem generatesPrime_lower {bits p : ℕ} (hb : 1 ≤ bits)
    (h : GeneratesPrime bits p) : 2 ^ (bits - 1) ≤ p := by
  obtain ⟨r, _, hp, _⟩ := h
  apply Nat.testBit_implies_ge (i := bits - 1)
  rw [hp]
  simp only [Nat.testBit_or, Nat.one_shiftLeft, Nat.testBit_two_pow_self,
    Bool.or_true, Bool.true_or]

theorem generatesPrime_upper {bits p : ℕ} (hb : 1 ≤ bits)
    (h : GeneratesPrime bits p) : p < 2 ^ bits := by
  obtain ⟨r, hr, hp, _⟩ := h
  rw [hp]
  refine Nat.or_lt_two_pow hr (Nat.or_lt_two_pow ?_ ?_)
  · rw [Nat.one_shiftLeft]
    exact Nat.pow_lt_pow_right one_lt_two (by omega)
  · exact Nat.one_lt_two_pow_iff.mpr (by omega)

theorem generatesPrime_isPrimeRet {bits p : ℕ} (h : GeneratesPrime bits p) :
    IsPrimeRet p true := by
  obtain ⟨r, _, _, hret⟩ := h
  exact hret

/-- A generated prime is at least 3: it is odd and survived the early
composite checks of `is_prime`. -/
theorem generatesPrime_three_le {bits p : ℕ} (h : GeneratesPrime bits p) :
    3 ≤ p := by
  have hodd := generatesPrime_odd h
  obtain ⟨bases, _, _, htrue⟩ := generatesPrime_isPrimeRet h
  by_contra hlt
  push_neg at hlt
  have hp1 : p ≤ 1 := by omega
  rw [is_prime_with_of_le_one hp1] at htrue
  exact Bool.false_ne_true htrue

/-- For odd exponents, `n - 1` is a fixed point of `x ↦ x ^ d % n`. -/
theorem pow_n_sub_one_odd {n d : ℕ} (hn : 2 ≤ n) (hd : d % 2 = 1) :
    (n - 1) ^ d % n = n - 1 := by
  haveI : NeZero n := ⟨by omega⟩
  have hcast : ((n - 1 : ℕ) : ZMod n) = -1 := by
    rw [Nat.cast_sub (by omega), ZMod.natCast_self, Nat.cast_one]
    ring
  have hpow : (((n - 1) ^ d : ℕ) : ZMod n) = ((n - 1 : ℕ) : ZMod n) := by
    calc (((n - 1) ^ d : ℕ) : ZMod n) = ((n - 1 : ℕ) : ZMod n) ^ d := by push_cast; ring
      _ = (-1 : ZMod n) ^ d := by rw [hcast]
      _ = -1 := Odd.neg_one_pow (Nat.odd_iff.mpr hd)
      _ = ((n - 1 : ℕ) : ZMod n) := hcast.symm
  have hmod := (ZMod.natCast_eq_natCast_iff _ _ _).mp hpow
  unfold Nat.ModEq at hmod
  rwa [Nat.mod_eq_of_lt (by omega : n - 1 < n)] at hmod

/-! ### Concrete, fully certified runs of the generators -/

/-- A concrete possible run of `generate_prime(6)` returning 61
(draw `r = 28`, all five Miller-Rabin bases drawn as 2). -/
theorem generatesPrime_61 : GeneratesPrime 6 61 := by
  refine ⟨28, by norm_num, by decide, [2, 2, 2, 2, 2], rfl, by decide, ?_⟩
  rw [is_prime_with_trials (by norm_num) (by norm_num)
    (show (61 : ℕ) - 1 = 2 ^ 2 * 15 by norm_num) (by norm_num)]
  decide

/-- A concrete possible run of `generate_prime(6)` returning 53. -/
theorem generatesPrime_53 : GeneratesPrime 6 53 := by
  refine ⟨20, by norm_num, by decide, [2, 2, 2, 2, 2], rfl, by decide, ?_⟩
  rw [is_prime_with_trials (by norm_num) (by norm_num)
    (show (53 : ℕ) - 1 = 2 ^ 2 * 13 by norm_num) (by norm_num)]
  decide

/-- A concrete possible run of `generate_prime(5)` returning the
composite 25 = 5²: every base drawn as 7, a strong liar for 25
(7³ ≡ 18, 18² ≡ 24 ≡ -1 (mod 25)), so `is_prime` answers `true`. -/
theorem generatesPrime_25 : GeneratesPrime 5 25 := by
  refine ⟨8, by norm_num, by decide, [7, 7, 7, 7, 7], rfl, by decide, ?_⟩
  rw [is_prime_with_trials (by norm_num) (by norm_num)
    (show (25 : ℕ) - 1 = 2 ^ 3 * 3 by norm_num) (by norm_num)]
  decide

/-- A concrete possible run of `generate_prime(5)` returning 29. -/
theorem generatesPrime_29 : GeneratesPrime 5 29 := by
  refine ⟨12, by norm_num, by decide, [2, 2, 2, 2, 2], rfl, by decide, ?_⟩
  rw [is_prime_with_trials (by norm_num) (by norm_num)
    (show (29 : ℕ) - 1 = 2 ^ 2 * 7 by norm_num) (by norm_num)]
  decide

/-- A concrete possible run of `generate_prime(11)` returning 1051. -/
theorem generatesPrime_1051 : GeneratesPrime 11 1051 := by
  refine ⟨1051, by norm_num, by decide, [2, 2, 2, 2, 2], rfl, by decide, ?_⟩
  rw [is_prime_with_trials (by norm_num) (by norm_num)
    (show (1051 : ℕ) - 1 = 2 ^ 1 * 525 by norm_num) (by norm_num)]
  decide

/-- A concrete possible run of `generate_prime(11)` returning 1061. -/
theorem generatesPrime_1061 : GeneratesPrime 11 1061 := by
  refine ⟨1061, by norm_num, by decide, [2, 2, 2, 2, 2], rfl, by decide, ?_⟩
  rw [is_prime_with_trials (by norm_num) (by norm_num)
    (show (1061 : ℕ) - 1 = 2 ^ 2 * 265 by norm_num) (by norm_num)]
  decide

/-- A concrete possible run of `generate_keypair(12)` producing the
textbook key pair p = 61, q = 53, n = 3233, e = 17, d = 2753. -/
theorem keypair_3233 : GeneratesKeypair 12 ((3233, 17), (3233, 2753)) := by
  refine ⟨61, 53, 17, 2753, generatesPrime_61, generatesPrime_53, by norm_num,
    by norm_num, by norm_num, ?_, ?_, by norm_num⟩
  · rw [gcd_eq_nat_gcd]
    decide
  · exact mod_inverse_eq_of (by norm_num) (by decide) (by norm_num) (by decide)

/-- A concrete possible run of `generate_keypair(10)` producing a key
pair whose first factor is the pseudoprime 25: n = 25·29 = 725,
e = 5, d = 269 (the inverse of 5 modulo phi = 24·28 = 672). -/
theorem keypair_725 : GeneratesKeypair 10 ((725, 5), (725, 269)) := by
  refine ⟨25, 29, 5, 269, generatesPrime_25, generatesPrime_29, by norm_num,
    by norm_num, by norm_num, ?_, ?_, by norm_num⟩
  · rw [gcd_eq_nat_gcd]
    decide
  · exact mod_inverse_eq_of (by norm_num) (by decide) (by norm_num) (by decide)

/-- A concrete possible run of `generate_keypair(22)` producing a key
pair with n = 1051·1061 = 1115111 > 0x110000: e = 11,
d = 607091 (the inverse of 11 modulo phi = 1050·1060 = 1113000). -/
theorem keypair_1115111 :
    GeneratesKeypair 22 ((1115111, 11), (1115111, 607091)) := by
  refine ⟨1051, 1061, 11, 607091, generatesPrime_1051, generatesPrime_1061,
    by norm_num, by norm_num, by norm_num, ?_, ?_, by norm_num⟩
  · rw [gcd_eq_nat_gcd]
    decide
  · exact mod_inverse_eq_of (by norm_num) (by decide) (by norm_num) (by decide)

/-! ### Claim C1 -/

/-- C1, counterexample: `generate_keypair` can return the key pair
`((725, 5), (725, 269))` (its first factor is the Miller-Rabin
pseudoprime 25 = 5², all bases drawn as the strong liar 7), and on this
key pair the byte 5 < n = 725 does not round-trip: it decrypts to 150.
So the claim as stated — round-trip for every key pair returned by
`generate_keypair` — is false. -/
theorem c1_counterexample :
    GeneratesKeypair 10 ((725, 5), (725, 269)) ∧ 5 < 725 ∧
    decrypt_bytes (725, 269) (encrypt_bytes (725, 5) [5]) ≠ some [5] :=
  ⟨keypair_725, by norm_num, by decide⟩

/-- C1 (amended): for every key pair `((p·q, e), (p·q, d))` that
`generate_keypair` can return and whose generated factors `p` and `q` are
actually prime, and every message all of whose units are `< n`,
decrypting the encryption returns exactly the original message in order:
on the text path (units are code points, so `≤ 0x10FFFF`) and on the
byte path (units are bytes, so `≤ 255`). -/
theorem c1_roundtrip {p q e d : ℕ} (hp : Nat.Prime p) (hq : Nat.Prime q)
    (hpq : p ≠ q) (hgcd : gcd e ((p - 1) * (q - 1)) = 1)
    (hd : mod_inverse e ((p - 1) * (q - 1)) = some (d : ℤ))
    (units : List ℕ) (hu : ∀ u ∈ units, u < p * q) :
    ((∀ u ∈ units, u ≤ 0x10FFFF) →
      (encrypt_text (p * q, e) units).bind (decrypt_text (p * q, d)) = some units) ∧
    ((∀ u ∈ units, u ≤ 255) →
      decrypt_bytes (p * q, d) (encrypt_bytes (p * q, e) units) = some units) := by
  have hphi : 1 < (p - 1) * (q - 1) := by
    rcases Nat.lt_or_ge p 3 with h3 | h3
    · have hp2 : p = 2 := by
        have := hp.two_le
        omega
      have hq3 : 3 ≤ q := by
        have h2q := hq.two_le
        have hq2 : q ≠ 2 := fun hq2 => hpq (by omega)
        omega
      have := Nat.mul_le_mul (show 1 ≤ p - 1 by omega) (show 2 ≤ q - 1 by omega)
      omega
    · have := Nat.mul_le_mul (show 2 ≤ p - 1 by omega)
        (show 1 ≤ q - 1 by have := hq.two_le; omega)
      omega
  have hgcdN : Nat.gcd e ((p - 1) * (q - 1)) = 1 := by
    rw [← gcd_eq_nat_gcd]
    exact hgcd
  obtain ⟨-, hed⟩ := mod_inverse_mul_mod hphi hgcdN hd
  have hrt : ∀ u ∈ units, (u ^ e % (p * q)) ^ d % (p * q) = u := fun u hu' =>
    rsa_roundtrip_unit hp hq hpq hed (hu u hu')
  have hmap : ∀ f : ℕ → Prop, (∀ u ∈ units, f ((u ^ e % (p * q)) ^ d % (p * q))) →
      (units.map fun u => u ^ e % (p * q)).map (fun c => c ^ d % (p * q)) = units := by
    intro _ _
    rw [List.map_map]
    calc units.map ((fun c => c ^ d % (p * q)) ∘ fun u => u ^ e % (p * q))
        = units.map id := List.map_congr_left fun u hu' => hrt u hu'
      _ = units := List.map_id units
  constructor
  · intro hcp
    rw [encrypt_text_all_lt hu]
    show decrypt_text (p * q, d) (units.map fun u => u ^ e % (p * q)) = some units
    rw [decrypt_text_all_le ?_]
    · rw [hmap (fun _ => True) fun u hu' => trivial]
    · intro c hc
      obtain ⟨u, hu', rfl⟩ := List.mem_map.mp hc
      rw [hrt u hu']
      exact hcp u hu'
  · intro h255
    show decrypt_bytes (p * q, d) (units.map fun b => b ^ e % (p * q)) = some units
    rw [decrypt_bytes_all_le ?_]
    · rw [hmap (fun _ => True) fun u hu' => trivial]
    · intro c hc
      obtain ⟨u, hu', rfl⟩ := List.mem_map.mp hc
      rw [hrt u hu']
      exact h255 u hu'

/-- C1, witness: the textbook key p = 61, q = 53, n = 3233, e = 17,
d = 2753 round-trips the message [65] on both paths. -/
theorem c1_witness :
    (encrypt_text (3233, 17) [65]).bind (decrypt_text (3233, 2753)) = some [65] ∧
    decrypt_bytes (3233, 2753) (encrypt_bytes (3233, 17) [65]) = some [65] := by
  have h := c1_roundtrip (p := 61) (q := 53) (e := 17) (d := 2753)
    (by norm_num) (by norm_num) (by norm_num)
    (by rw [gcd_eq_nat_gcd]; decide)
    (mod_inverse_eq_of (by norm_num) (by decide) (by norm_num) (by decide))
    [65] (by decide)
  exact ⟨h.1 (by decide), h.2 (by decide)⟩

/-! ### Claim C2 -/

/-- C2: whenever `generate_keypair(bits)` returns (positive even `bits`),
the result is `((n, e), (n, d))` with `n = p·q` for distinct `p ≠ q`,
each passing `is_prime` and each of bit length exactly `bits/2`, and with
`phi = (p-1)(q-1)`: `2 ≤ e ≤ phi - 1`, `gcd(e, phi) = 1` and
`(e·d) mod phi = 1`. -/
theorem c2_keypair_shape {bits : ℕ} {kp : (ℕ × ℕ) × (ℕ × ℕ)}
    (hbits : 0 < bits) (heven : bits % 2 = 0) (h : GeneratesKeypair bits kp) :
    ∃ p q e d : ℕ,
      kp = ((p * q, e), (p * q, d)) ∧ p ≠ q ∧
      IsPrimeRet p true ∧ IsPrimeRet q true ∧
      2 ^ (bits / 2 - 1) ≤ p ∧ p < 2 ^ (bits / 2) ∧
      2 ^ (bits / 2 - 1) ≤ q ∧ q < 2 ^ (bits / 2) ∧
      2 ≤ e ∧ e ≤ (p - 1) * (q - 1) - 1 ∧
      Nat.gcd e ((p - 1) * (q - 1)) = 1 ∧
      e * d % ((p - 1) * (q - 1)) = 1 := by
  obtain ⟨p, q, e, d, hp, hq, hne, he2, hele, hg, hmi, hkp⟩ := h
  have hb2 : 1 ≤ bits / 2 := by omega
  have h3p := generatesPrime_three_le hp
  have h3q := generatesPrime_three_le hq
  have hphi : 1 < (p - 1) * (q - 1) := by
    have := Nat.mul_le_mul (show 2 ≤ p - 1 by omega) (show 2 ≤ q - 1 by omega)
    omega
  have hgN : Nat.gcd e ((p - 1) * (q - 1)) = 1 := by
    rw [← gcd_eq_nat_gcd]
    exact hg
  obtain ⟨hdlt, hed⟩ := mod_inverse_mul_mod hphi hgN hmi
  exact ⟨p, q, e, d, hkp, hne,
    generatesPrime_isPrimeRet hp, generatesPrime_isPrimeRet hq,
    generatesPrime_lower hb2 hp, generatesPrime_upper hb2 hp,
    generatesPrime_lower hb2 hq, generatesPrime_upper hb2 hq,
    he2, hele, hgN, hed⟩

/-- C2, witness: the shape facts instantiated on the concrete
`generate_keypair(12)` run producing `((3233, 17), (3233, 2753))`. -/
theorem c2_witness :
    ∃ p q e d : ℕ,
      (((3233, 17), (3233, 2753)) : (ℕ × ℕ) × (ℕ × ℕ)) = ((p * q, e), (p * q, d)) ∧
      p ≠ q ∧ IsPrimeRet p true ∧ IsPrimeRet q true ∧
      2 ^ (12 / 2 - 1) ≤ p ∧ p < 2 ^ (12 / 2) ∧
      2 ^ (12 / 2 - 1) ≤ q ∧ q < 2 ^ (12 / 2) ∧
      2 ≤ e ∧ e ≤ (p - 1) * (q - 1) - 1 ∧
      Nat.gcd e ((p - 1) * (q - 1)) = 1 ∧
      e * d % ((p - 1) * (q - 1)) = 1 :=
  c2_keypair_shape (by norm_num) (by norm_num) keypair_3233

/-! ### Claim C3 -/

/-- C3, counterexample: `encrypt_bytes` performs no range check. Under
the key n = 203 ≤ 255, e = 3, the byte 250 ≥ n is happily encrypted to
the ciphertext unit 90 — the call does not fail, contradicting the claim
that both encryption entry points fail with `UnitTooLarge` on an
oversized unit. -/
theorem c3_counterexample :
    (203 : ℕ) ≤ 250 ∧ (203 : ℕ) ≤ 255 ∧ encrypt_bytes (203, 3) [250] = [90] :=
  ⟨by norm_num, by norm_num, by decide⟩

/-- C3 (amended): only the text entry point checks units against `n`:
`encrypt_text` aborts the whole call (no partial ciphertext) whenever
some unit is `≥ n`, while `encrypt_bytes` performs no check at all and
returns `pow(b, e, n)` for every byte regardless of `n`. -/
theorem c3_encrypt_checks {n e : ℕ} :
    (∀ units : List ℕ, (∃ u ∈ units, n ≤ u) → encrypt_text (n, e) units = none) ∧
    (∀ data : List ℕ, encrypt_bytes (n, e) data = data.map fun b => b ^ e % n) :=
  ⟨fun _ h => encrypt_text_none_of h, fun _ => rfl⟩

/-- C3, witness: under the key (203, 3), the text path rejects the unit
300 ≥ 203 with no output, while the byte path maps 250 to a ciphertext. -/
theorem c3_witness :
    encrypt_text (203, 3) [300] = none ∧
    encrypt_bytes (203, 3) [250] = [250 ^ 3 % 203] :=
  ⟨c3_encrypt_checks.1 [300] ⟨300, by decide, by decide⟩,
   c3_encrypt_checks.2 [250]⟩

/-! ### Claim C4 -/

/-- C4: `decrypt_bytes(priv, cipher)` fails (with `InvalidByteValue`)
iff some decrypted value `c^d mod n` exceeds 255 (the values are never
negative); on failure the whole call aborts emitting nothing, and on
success it returns exactly the decrypted byte values in input order. -/
theorem c4_decrypt_bytes_spec {n d : ℕ} (hn : 0 < n) (cipher : List ℕ) :
    (decrypt_bytes (n, d) cipher = none ↔ ∃ c ∈ cipher, 255 < c ^ d % n) ∧
    ((∀ c ∈ cipher, c ^ d % n ≤ 255) →
      decrypt_bytes (n, d) cipher = some (cipher.map fun c => c ^ d % n)) :=
  ⟨decrypt_bytes_none_iff cipher, fun h => decrypt_bytes_all_le h⟩

/-- C4, witness: decrypting [2] under (7, 3) succeeds with [1], and
decrypting [300] under (1000, 1) fails since 300 > 255. -/
theorem c4_witness :
    decrypt_bytes (7, 3) [2] = some [1] ∧
    decrypt_bytes (1000, 1) [300] = none := by
  constructor
  · have h := (c4_decrypt_bytes_spec (n := 7) (d := 3) (by norm_num) [2]).2 (by decide)
    simpa using h
  · exact (c4_decrypt_bytes_spec (n := 1000) (d := 1) (by norm_num) [300]).1.mpr
      ⟨300, by decide, by decide⟩

/-! ### Claim C5 -/

/-- C5, counterexample: `is_prime(91)` does NOT return false for every
choice of bases: there is a draw of the five random bases — all equal to
the strong liar 10, which lies in the legal range [2, 89] — on which
`is_prime` returns true (10^45 ≡ -1 (mod 91)). -/
theorem c5_counterexample : IsPrimeRet 91 true := by
  refine ⟨[10, 10, 10, 10, 10], rfl, by decide, ?_⟩
  rw [is_prime_with_trials (by norm_num) (by norm_num)
    (show (91 : ℕ) - 1 = 2 ^ 1 * 45 by norm_num) (by norm_num)]
  decide

/-- C5 (amended): for every choice of the drawn bases, `is_prime`
returns true for 2, 3 and 97 and false for 1, 4 and 15; more generally
false for every n ≤ 1, for 4, and for every even n > 2, and true on
every prime (no false negatives).  (For 91 the result is not the same
for every draw: see the counterexample.) -/
theorem c5_is_prime_fixtures :
    (∀ bases : List ℕ, is_prime_with 2 bases = true) ∧
    (∀ bases : List ℕ, is_prime_with 3 bases = true) ∧
    (∀ bases : List ℕ, (∀ a ∈ bases, 2 ≤ a ∧ a ≤ 97 - 2) →
      is_prime_with 97 bases = true) ∧
    (∀ n : ℕ, n ≤ 1 → ∀ bases : List ℕ, is_prime_with n bases = false) ∧
    (∀ bases : List ℕ, is_prime_with 4 bases = false) ∧
    (∀ bases : List ℕ, bases.length = 5 → (∀ a ∈ bases, 2 ≤ a ∧ a ≤ 15 - 2) →
      is_prime_with 15 bases = false) ∧
    (∀ n : ℕ, 2 < n → n % 2 = 0 → ∀ bases : List ℕ,
      is_prime_with n bases = false) ∧
    (∀ p : ℕ, Nat.Prime p → ∀ bases : List ℕ,
      (∀ a ∈ bases, 2 ≤ a ∧ a ≤ p - 2) → is_prime_with p bases = true) := by
  refine ⟨fun bases => is_prime_with_two_or_three (Or.inl rfl) bases,
    fun bases => is_prime_with_two_or_three (Or.inr rfl) bases,
    fun bases hb => is_prime_with_prime (by norm_num) bases hb,
    fun n hn bases => is_prime_with_of_le_one hn bases,
    fun bases => is_prime_with_four bases,
    ?_,
    fun n h2 he bases => is_prime_with_even h2 he bases,
    fun p hp bases hb => is_prime_with_prime hp bases hb⟩
  intro bases hlen hvalid
  cases bases with
  | nil => simp at hlen
  | cons a rest =>
    rw [is_prime_with_trials (by norm_num) (by norm_num)
      (show (15 : ℕ) - 1 = 2 ^ 1 * 7 by norm_num) (by norm_num),
      is_prime_trials_cons]
    have hfa : millerTrial 15 7 1 a = false := by
      have hmem := hvalid a (List.mem_cons_self _ _)
      have hdec : ∀ b : ℕ, b < 14 → 2 ≤ b → millerTrial 15 7 1 b = false := by decide
      exact hdec a (by omega) hmem.1
    rw [hfa]
    simp

/-- C5, witness: concrete instances of the fixture classification. -/
theorem c5_witness :
    is_prime_with 97 [2, 5, 10, 50, 95] = true ∧
    is_prime_with 15 [2, 3, 4, 5, 6] = false ∧
    is_prime_with 2 [0, 0, 0, 0, 0] = true :=
  ⟨c5_is_prime_fixtures.2.2.1 [2, 5, 10, 50, 95] (by decide),
   c5_is_prime_fixtures.2.2.2.2.2.1 [2, 3, 4, 5, 6] rfl (by decide),
   c5_is_prime_fixtures.1 [0, 0, 0, 0, 0]⟩

/-! ### Claim C6 -/

/-- C6, counterexample: it is not true that no error is signalled when
`gcd(a, m) ≠ 1`: `mod_inverse(4, 6)` reaches the loop state
`(a, m) = (2, 0)` and Python raises an uncaught `ZeroDivisionError` at
`q = a // m` (modelled by `none`) instead of returning a value. -/
theorem c6_counterexample : mod_inverse 4 6 = none := by
  have h1 : modInvLoop 2 0 (-1) 3 = none := by
    rw [modInvLoop, if_pos (by norm_num), dif_pos rfl]
  have h2 : modInvLoop 4 2 1 (-1) = modInvLoop 2 0 (-1) 3 := by
    rw [modInvLoop, if_pos (by norm_num), dif_neg (by norm_num)]
    norm_num
  have h3 : modInvLoop 6 4 0 1 = modInvLoop 4 2 1 (-1) := by
    rw [modInvLoop, if_pos (by norm_num), dif_neg (by norm_num)]
    norm_num
  have h4 : modInvLoop 4 6 1 0 = modInvLoop 6 4 0 1 := by
    rw [modInvLoop, if_pos (by norm_num), dif_neg (by norm_num)]
    norm_num
  unfold mod_inverse
  rw [if_neg (by norm_num), h4, h3, h2, h1]
  rfl

/-- C6 (amended): `mod_inverse(a, 1) = 0` for every `a`; and for every
`a` and `m > 1` with `gcd(a, m) = 1` the result `r` satisfies
`0 ≤ r < m` and `(a·r) mod m = 1`.  (When `gcd(a, m) ≠ 1` the call may
instead raise an uncaught `ZeroDivisionError` — see the
counterexample — so failure is not always silent.) -/
theorem c6_mod_inverse :
    (∀ a : ℕ, mod_inverse a 1 = some 0) ∧
    (∀ a m : ℕ, 1 < m → Nat.gcd a m = 1 →
      ∃ r : ℤ, mod_inverse a m = some r ∧ 0 ≤ r ∧ r < (m : ℤ) ∧
        (a : ℤ) * r % (m : ℤ) = 1) := by
  refine ⟨mod_inverse_one, ?_⟩
  intro a m hm hgcd
  obtain ⟨r, hrun, hr0, hrm, hcong⟩ := mod_inverse_spec hm hgcd
  refine ⟨r, hrun, hr0, hrm, ?_⟩
  unfold Int.ModEq at hcong
  rwa [Int.emod_eq_of_lt zero_le_one (by exact_mod_cast hm)] at hcong

/-- C6, witness: `mod_inverse(9, 1) = 0`, and a proper inverse exists
for the coprime pair (3, 5). -/
theorem c6_witness :
    mod_inverse 9 1 = some 0 ∧
    ∃ r : ℤ, mod_inverse 3 5 = some r ∧ 0 ≤ r ∧ r < (5 : ℤ) ∧
      (3 : ℤ) * r % (5 : ℤ) = 1 :=
  ⟨c6_mod_inverse.1 9, c6_mod_inverse.2 3 5 (by norm_num) (by decide)⟩

/-! ### Claim C7 -/

/-- C7: the source `gcd` is symmetric and satisfies `gcd(a, 0) = a` for
all non-negative integers. -/
theorem c7_gcd_props (a b : ℕ) : gcd a b = gcd b a ∧ gcd a 0 = a := by
  constructor
  · rw [gcd_eq_nat_gcd, gcd_eq_nat_gcd, Nat.gcd_comm]
  · rw [gcd]
    simp

/-! ### Claim C8 -/

/-- C8: whenever `generate_prime(bits)` returns (positive `bits`), its
result is odd, lies in `[2^(bits-1), 2^bits)` (exact bit length), and
passed `is_prime`. -/
theorem c8_generate_prime {bits p : ℕ} (hbits : 1 ≤ bits)
    (h : GeneratesPrime bits p) :
    p % 2 = 1 ∧ 2 ^ (bits - 1) ≤ p ∧ p < 2 ^ bits ∧ IsPrimeRet p true :=
  ⟨generatesPrime_odd h, generatesPrime_lower hbits h,
    generatesPrime_upper hbits h, generatesPrime_isPrimeRet h⟩

/-- C8, witness: the concrete `generate_prime(6)` run returning 61. -/
theorem c8_witness :
    61 % 2 = 1 ∧ 2 ^ 5 ≤ 61 ∧ 61 < 2 ^ 6 ∧ IsPrimeRet 61 true :=
  c8_generate_prime (by norm_num) generatesPrime_61

/-! ### Claim C9 -/

/-- C9: `decrypt_text` is not total: for every private key produced by
`generate_keypair` with `n > 0x110000`, there is a ciphertext whose
entries all lie in `[0, n)` on which `decrypt_text` hits an uncaught
`chr` exception (a decrypted value above 0x10FFFF) instead of returning
a string.  The witnessing ciphertext is `[n - 1]`: the private exponent
of a generated key is always odd, so `(n-1)^d ≡ n-1 (mod n)`. -/
theorem c9_decrypt_text_partial {bits n e d : ℕ}
    (h : GeneratesKeypair bits ((n, e), (n, d))) (hn : 0x110000 < n) :
    ∃ cipher : List ℕ, (∀ c ∈ cipher, c < n) ∧
      decrypt_text (n, d) cipher = none := by
  obtain ⟨p, q, e', d', hp, hq, hne, he2, hele, hg, hmi, hkp⟩ := h
  simp only [Prod.mk.injEq] at hkp
  obtain ⟨⟨hn1, he'⟩, -, hd'⟩ := hkp
  subst he'
  subst hd'
  have h3p := generatesPrime_three_le hp
  have h3q := generatesPrime_three_le hq
  have hoddp := generatesPrime_odd hp
  have hphi : 1 < (p - 1) * (q - 1) := by
    have := Nat.mul_le_mul (show 2 ≤ p - 1 by omega) (show 2 ≤ q - 1 by omega)
    omega
  have hgN : Nat.gcd e ((p - 1) * (q - 1)) = 1 := by
    rw [← gcd_eq_nat_gcd]
    exact hg
  obtain ⟨hdlt, hed⟩ := mod_inverse_mul_mod hphi hgN hmi
  have hphi_even : (p - 1) * (q - 1) % 2 = 0 := by
    have hp1 : (p - 1) % 2 = 0 := by omega
    rw [Nat.mul_mod, hp1, zero_mul, Nat.zero_mod]
  have hd_odd : d % 2 = 1 := by
    by_contra hcon
    have hd0 : d % 2 = 0 := by omega
    have h1 : (p - 1) * (q - 1) * (e * d / ((p - 1) * (q - 1))) + 1 = e * d := by
      conv_rhs => rw [← Nat.div_add_mod (e * d) ((p - 1) * (q - 1))]
      rw [hed]
    have hA : e * d % 2 = 0 := by
      rw [Nat.mul_mod, hd0, mul_zero, Nat.zero_mod]
    have hB : (p - 1) * (q - 1) * (e * d / ((p - 1) * (q - 1))) % 2 = 0 := by
      rw [Nat.mul_mod, hphi_even, zero_mul, Nat.zero_mod]
    omega
  have hv : (n - 1) ^ d % n = n - 1 := pow_n_sub_one_odd (by omega) hd_odd
  refine ⟨[n - 1], ?_, ?_⟩
  · intro c hc
    rw [List.mem_singleton] at hc
    omega
  · rw [decrypt_text_cons,
      if_pos (show 0x10FFFF < (n - 1) ^ d % n by rw [hv]; omega)]

/-- C9, witness: the concrete `generate_keypair(22)` key
(n = 1115111 > 0x110000, d = 607091) admits such a ciphertext. -/
theorem c9_witness :
    (0x110000 : ℕ) < 1115111 ∧
    ∃ cipher : List ℕ, (∀ c ∈ cipher, c < 1115111) ∧
      decrypt_text (1115111, 607091) cipher = none :=
  ⟨by norm_num, c9_decrypt_text_partial keypair_1115111 (by norm_num)⟩

/-! ### Claim C10 -/

/-- C10: the Python value returned by a failed `encrypt_text` call is
the empty list, identical to its successful result on the empty string;
the value returned by a failed `decrypt_bytes` call is the empty byte
string, identical to its successful result on the empty ciphertext — so
a caller cannot distinguish failure from an empty success by the return
value alone. -/
theorem c10_failure_indistinguishable :
    (∀ key : ℕ × ℕ, encrypt_text key [] = some []) ∧
    (∀ key : ℕ × ℕ, decrypt_bytes key [] = some []) ∧
    (∀ (key : ℕ × ℕ) (units : List ℕ), encrypt_text key units = none →
      encrypt_text_ret key units = encrypt_text_ret key []) ∧
    (∀ (key : ℕ × ℕ) (cipher : List ℕ), decrypt_bytes key cipher = none →
      decrypt_bytes_ret key cipher = decrypt_bytes_ret key []) := by
  refine ⟨fun _ => rfl, fun _ => rfl, ?_, ?_⟩
  · intro key units h
    unfold encrypt_text_ret
    rw [h]
    rfl
  · intro key cipher h
    unfold decrypt_bytes_ret
    rw [h]
    rfl

/-- C10, witness: concrete indistinguishable outcomes. -/
theorem c10_witness :
    encrypt_text_ret (5, 3) [7] = encrypt_text_ret (5, 3) [] ∧
    decrypt_bytes_ret (1000, 1) [300] = decrypt_bytes_ret (1000, 1) [] :=
  ⟨c10_failure_indistinguishable.2.2.1 (5, 3) [7] (by decide),
   c10_failure_indistinguishable.2.2.2 (1000, 1) [300] (by decide)⟩

end RSAImage
